import Mathlib

/-!
# Verification of the inspire-utils name subsystem

Shallow embedding of `inspire_utils/name.py` and `inspire_utils/query.py`.
Strings are represented as `List Char`; Python string methods become
recursive functions on character lists.  The external `nameparser.HumanName`
parser is not part of the repository: where its behaviour is needed it is
modelled from the specification (definitions carrying a
`Modelled from the spec:` doc comment).
-/

abbrev Str := List Char

/-- Whitespace test used for Python `str.strip()` / `str.split()` and the
regex class `\s` (ASCII fragment). -/
def is_space_char (c : Char) : Bool :=
  c == ' ' || c == '\t' || c == '\n' || c == '\r'

/-- Python `str.lower()` (ASCII fragment, as relevant to the embedded inputs). -/
def lower_str (s : Str) : Str := s.map Char.toLower

/-- Python `str.upper()` (ASCII fragment). -/
def upper_str (s : Str) : Str := s.map Char.toUpper

/-- Drop characters satisfying `p` from both ends (Python `str.strip(chars)`). -/
def strip_while (p : Char → Bool) (s : Str) : Str :=
  ((s.dropWhile p).reverse.dropWhile p).reverse

/-- Python `str.strip()` with no arguments. -/
def strip_ws (s : Str) : Str := strip_while is_space_char s

/-- Characters of `''.join(_LASTNAME_NON_LASTNAME_SEPARATORS)`, i.e. space
and comma: the strip set used by `_update_name_variations_with_product`. -/
def is_sep_char (c : Char) : Bool := c == ' ' || c == ','

/-- `.strip(''.join(_LASTNAME_NON_LASTNAME_SEPARATORS))` from `name.py`. -/
def strip_seps (s : Str) : Str := strip_while is_sep_char s

/-- Python `sep.join(parts)`: concatenation with a separator between
consecutive parts. -/
def join_with (sep : Str) : List Str → Str
  | [] => []
  | [t] => t
  | t :: ts => t ++ sep ++ join_with sep ts

/-- Python `str.split(d)` on a single character (keeps empty pieces). -/
def split_on_char (d : Char) : Str → List Str
  | [] => [[]]
  | c :: rest =>
    let r := split_on_char d rest
    if c == d then [] :: r
    else
      match r with
      | [] => [[c]]
      | t :: ts => (c :: t) :: ts

/-- Tokenizer on a character class: splits into maximal runs of characters
not satisfying `sep`, discarding empty pieces (Python `str.split()`). -/
def split_toks_aux (sep : Char → Bool) (acc : Str) : Str → List Str
  | [] => if acc = [] then [] else [acc.reverse]
  | c :: rest =>
    if sep c then
      (if acc = [] then [] else [acc.reverse]) ++ split_toks_aux sep [] rest
    else split_toks_aux sep (c :: acc) rest

/-- Whitespace tokenization. -/
def split_ws (s : Str) : List Str := split_toks_aux is_space_char [] s

/-- Tokenization on whitespace or commas (used for the comma-delimited part
of a name). -/
def split_ws_comma (s : Str) : List Str :=
  split_toks_aux (fun c => is_space_char c || c == ',') [] s

/-- The segment of a string before its first comma. -/
def before_comma (s : Str) : Str := s.takeWhile (fun c => c != ',')

/-- The segment of a string after its first comma. -/
def after_comma (s : Str) : Str := (s.dropWhile (fun c => c != ',')).drop 1

/-- ASCII apostrophe (written via its code point). -/
def apos : Char := Char.ofNat 39

/-- `final_name.replace(u'’', "'")` from `ParsedName.dumps`. -/
def replace_curly (s : Str) : Str :=
  s.map (fun c => if c == '’' then apos else c)

/- ## Constants table (`_prepare_nameparser_constants`) -/

/-- The roman-numeral suffixes added by `_prepare_nameparser_constants`. -/
def roman_numeral_suffixes : List Str :=
  [("vi").data, ("vii").data, ("viii").data, ("ix").data, ("x").data,
   ("xi").data, ("xii").data, ("xiii").data, ("xiv").data, ("xv").data]

/-- The titles installed by `_prepare_nameparser_constants`. -/
def inspire_titles : List Str :=
  [("Dr").data, ("Prof").data, ("Professor").data, ("Sir").data,
   ("Editor").data, ("Ed").data, ("Mr").data, ("Mrs").data, ("Ms").data,
   ("Chair").data, ("Co-Chair").data, ("Chairs").data, ("co-Chairs").data]

/-- Modelled from the spec: the default non-acronym generational suffixes of
the external `nameparser` library (the library itself is not part of the
repository; the spec describes the table as holding generational suffixes
such as `Jr` plus roman numerals). -/
def nameparser_default_suffixes : List Str :=
  [("jr").data, ("jr.").data, ("junior").data, ("sr").data, ("sr.").data,
   ("ii").data, ("iii").data, ("iv").data]

/-- The `nameparser.config.Constants` table, reduced to the four member sets
that `_prepare_nameparser_constants` touches. -/
structure NameConstants where
  titles : List Str
  suffix_not_acronyms : List Str
  suffix_acronyms : List Str
  suffixes_prefixes_titles : List Str
deriving DecidableEq, Repr

/-- `_prepare_nameparser_constants` from `name.py`: titles replaced by the
inspire list, roman numerals added to the non-acronym suffixes, the two
other sets emptied. -/
def prepare_nameparser_constants : NameConstants :=
  { titles := inspire_titles
    suffix_not_acronyms := nameparser_default_suffixes ++ roman_numeral_suffixes
    suffix_acronyms := []
    suffixes_prefixes_titles := [] }

/-- Effect of `ParsedName.__init__` on the process-wide constants table
(`ParsedName.constants`); `passed` is the optional `constants` argument.
When no constants are passed, the shared table itself is the object that
`constants.titles = []` mutates. -/
def parsed_name_init_constants (without_titles : Bool)
    (passed : Option NameConstants) (globalC : NameConstants) : NameConstants :=
  match passed with
  | some _ => globalC
  | none => if without_titles then { globalC with titles := [] } else globalC

/- ## The structured name -/

/-- The structured name behind `ParsedName`: the `HumanName` member lists
plus the fields `ParsedName.__init__` derives.  `firstL`/`middleL`/`lastL`/
`suffixL`/`titleL` are the token lists `first_list`, `middle_list`,
`last_list`, `suffix_list`, `title_list` of the wrapped `HumanName`;
`original` is the raw input retained by the parser. -/
structure ParsedName where
  titleL : List Str
  firstL : List Str
  middleL : List Str
  lastL : List Str
  suffixL : List Str
  original : Str
  maybe_only_last_name : Bool

/-- `ParsedName.first_list`: `filter(None, first_list + middle_list)`. -/
def first_list (p : ParsedName) : List Str :=
  (p.firstL ++ p.middleL).filter (fun t => t ≠ [])

/-- The `HumanName.first` string: its token list joined by spaces. -/
def first_hn_str (p : ParsedName) : Str := join_with ([' ']) p.firstL

/-- The `HumanName.middle` string. -/
def middle_hn_str (p : ParsedName) : Str := join_with ([' ']) p.middleL

/-- The `HumanName.title` string. -/
def title_str (p : ParsedName) : Str := join_with ([' ']) p.titleL

/-- `ParsedName.last` (`HumanName.last`). -/
def last_str (p : ParsedName) : Str := join_with ([' ']) p.lastL

/-- `ParsedName.suffix` (`HumanName.suffix`). -/
def suffix_str (p : ParsedName) : Str := join_with ([' ']) p.suffixL

/-- `ParsedName.first`: `'{} {}'.format(first, middle).strip()`. -/
def first_str (p : ParsedName) : Str :=
  strip_ws (first_hn_str p ++ [' '] ++ middle_hn_str p)

/-- Modelled from the spec: `len(HumanName)` — the number of non-empty
member strings (title, first, middle, last, suffix) of the parsed name;
the spec calls a name with `plen = 1` "exactly one effective token". -/
def plen (p : ParsedName) : Nat :=
  (([title_str p, first_hn_str p, middle_hn_str p, last_str p,
     suffix_str p]).filter (fun s => s ≠ [])).length

/-- Modelled from the spec: `str(HumanName)` — the full-name string
reassembled from the parsed member strings, joined by single spaces. -/
def str_human_name (p : ParsedName) : Str :=
  join_with ([' '])
    (([title_str p, first_hn_str p, middle_hn_str p, last_str p,
       suffix_str p]).filter (fun s => s ≠ []))

/- ## `ParsedName.dumps` -/

/-- `_is_initial` from `ParsedName.dumps`. -/
def is_initial_tok (t : Str) : Bool := t.length == 1 || t.contains '.'

/-- `_ensure_dotted_initials` from `ParsedName.dumps`. -/
def ensure_dotted_initials (t : Str) : Str :=
  if is_initial_tok t && !t.contains '.' then t ++ ['.'] else t

/-- `_ensure_dotted_suffixes` from `ParsedName.dumps`. -/
def ensure_dotted_suffixes (s : Str) : Str :=
  if !s.contains '.' then s ++ ['.'] else s

/-- The valid roman-numeral characters of `_is_roman_numeral`. -/
def roman_chars : List Char := ['M', 'D', 'C', 'L', 'X', 'V', 'I', '(', ')']

/-- `_is_roman_numeral` from `ParsedName.dumps`. -/
def is_roman_numeral (s : Str) : Bool :=
  (upper_str s).all (fun c => roman_chars.contains c)

/-- The joining loop of `ParsedName.dumps`: a space separates consecutive
tokens unless both the token and its predecessor are initials. -/
def dumps_join (prev : Str) : List Str → Str
  | [] => []
  | n :: rest =>
    (if is_initial_tok n && is_initial_tok prev then [] else [' ']) ++
      n ++ dumps_join n rest

/-- The `first_and_middle_names` consumption of `ParsedName.dumps`: the
joined given names together with the flag recording whether the
`StopIteration` warning branch was taken. -/
def dumps_names : List Str → Str × Bool
  | [] => ([], true)
  | n :: rest => (n ++ dumps_join n rest, false)

/-- `ParsedName.dumps`.  Returns the normalized string together with a flag
recording whether the warning-level diagnostic
(`LOGGER.warning("Cannot process %s properly", ...)`) was emitted. -/
def dumps (p : ParsedName) : Str × Bool :=
  let nw := dumps_names ((first_list p).map ensure_dotted_initials)
  let sfx :=
    if is_roman_numeral (suffix_str p) then upper_str (suffix_str p)
    else ensure_dotted_suffixes (suffix_str p)
  let final_name :=
    join_with ([',', ' '])
      (([last_str p, strip_ws nw.1, sfx]).filter (fun s => s ≠ []))
  (replace_curly final_name, nw.2)

/- ## The parser (external `HumanName`, modelled) -/

/-- The configured suffix set consulted by the modelled parser. -/
def all_suffixes : List Str := prepare_nameparser_constants.suffix_not_acronyms

/-- Is a token a recognized generational/roman suffix (case-insensitive)? -/
def is_suffix_tok (t : Str) : Bool := all_suffixes.contains (lower_str t)

/-- Move recognized suffix tokens from the end of the token list into the
suffix slot, preserving their order. -/
def strip_trailing_suffixes (toks : List Str) : List Str × List Str :=
  let rev := toks.reverse
  ((rev.dropWhile is_suffix_tok).reverse, (rev.takeWhile is_suffix_tok).reverse)

/-- First character uppercased, remainder lowercased. -/
def upper_first_lower_rest : Str → Str
  | [] => []
  | c :: rest => c.toUpper :: rest.map Char.toLower

/-- Modelled from the spec: the per-token capitalization normalization
(`HumanName.capitalize`, invoked by `ParsedName.__init__`): a token is
re-capitalized (first character upper, remainder lower) unless it already
contains capitals, which are taken as deliberate casing. -/
def cap_token (t : Str) : Str :=
  if t.any (fun c => c.isUpper) then t else upper_first_lower_rest t

/-- Modelled from the spec: the structural name parser (`HumanName` wrapped
by `ParsedName.__init__`/`ParsedName.loads`, neither the `nameparser`
library nor its configuration being part of the repository).  With a comma,
the text before the first comma gives the surname tokens and the text after
it the given-name tokens, trailing suffix-list matches moving into the
suffix slot.  Without a comma, the final token becomes the surname and the
preceding ones the given names, except that a bare single token is kept in
the first slot (as documented at `generate_es_query`: "ParsedName returns
first name if there is only one name").  Honorific-title stripping is not
modelled; the inputs fed to this parser contain no titles.  The
`maybe_only_last_name` flag is computed as in `ParsedName.__init__`: no
comma in the input and (no first token, or no period in the last first
token).  `parse_comma_form` is the comma branch, `parse_plain_form` (below)
the comma-free branch, `parse_name` the dispatcher. -/
def parse_comma_form (raw : Str) : ParsedName :=
  { titleL := []
    firstL :=
      (strip_trailing_suffixes
        ((split_ws_comma (after_comma raw)).map cap_token)).1.take 1
    middleL :=
      (strip_trailing_suffixes
        ((split_ws_comma (after_comma raw)).map cap_token)).1.drop 1
    lastL := (split_ws (before_comma raw)).map cap_token
    suffixL :=
      (strip_trailing_suffixes
        ((split_ws_comma (after_comma raw)).map cap_token)).2
    original := raw
    maybe_only_last_name := false }

/-- The comma-free branch of the modelled parser (see `parse_name`). -/
def parse_plain_form (raw : Str) : ParsedName :=
  let cs := strip_trailing_suffixes ((split_ws raw).map cap_token)
  let firsts := if cs.1.length ≤ 1 then cs.1 else cs.1.dropLast
  let lasts := if cs.1.length ≤ 1 then ([] : List Str) else [cs.1.getLastD []]
  let fl := firsts.filter (fun t => t ≠ [])
  { titleL := [], firstL := firsts.take 1, middleL := firsts.drop 1,
    lastL := lasts, suffixL := cs.2, original := raw,
    maybe_only_last_name := fl.isEmpty || !(fl.getLastD []).contains '.' }

/-- The modelled parser dispatcher (see `parse_comma_form`). -/
def parse_name (raw : Str) : ParsedName :=
  if raw.contains ',' then parse_comma_form raw else parse_plain_form raw

/-- `normalize_name` from `name.py`: `None` on blank input, otherwise
`ParsedName.loads(name).dumps()`. -/
def normalize_name (raw : Str) : Option Str :=
  if raw.all is_space_char then none else some (dumps (parse_name raw)).1

/- ## `generate_name_variations` -/

/-- `_NAMES_MAX_NUMBER_THRESHOLD` from `name.py`. -/
def NAMES_MAX_NUMBER_THRESHOLD : Nat := 5

/-- `_LASTNAME_NON_LASTNAME_SEPARATORS` from `name.py`. -/
def lastname_non_lastname_separators : List Str := [[' '], [',', ' ']]

/-- Modelled from the spec: the character transliteration of the external
`unidecode` library ("Unicode-folding: transliteration of accented
characters to their closest plain-ASCII equivalent"); ASCII characters map
to themselves. -/
def unidecode_char (c : Char) : Str :=
  if c == 'ü' then ['u'] else if c == 'é' then ['e']
  else if c == 'è' then ['e'] else if c == 'í' then ['i']
  else if c == 'á' then ['a'] else if c == 'ó' then ['o']
  else if c == 'ö' then ['o'] else if c == 'ñ' then ['n']
  else if c == '’' then [apos] else [c]

/-- `unidecode` applied to a string. -/
def unidecode_str (s : Str) : Str := s.flatMap unidecode_char

/-- The in-place three-way transformation of `_generate_non_lastnames_variations`:
`('', non_lastname[0], non_lastname)` — drop, initial, full. -/
def three_way (t : Str) : List Str :=
  match t with
  | [] => [[], [], []]
  | c :: _ => [[], [c], t]

/-- `itertools.product` over a list of choice lists. -/
def list_prod : List (List Str) → List (List Str)
  | [] => [[]]
  | xs :: rest => xs.flatMap (fun x => (list_prod rest).map (fun combo => x :: combo))

/-- `_generate_non_lastnames_variations` from `name.py`. -/
def generate_non_lastnames_variations (nls : List Str) : List Str :=
  if nls = [] then []
  else
    (list_prod (nls.map three_way)).map
      (fun combo =>
        strip_ws (join_with ([' ']) (combo.filter (fun s => s ≠ []))))

/-- `_generate_lastnames_variations` from `name.py`. -/
def generate_lastnames_variations (lns : List Str) : List Str :=
  if lns = [] then []
  else
    let split := lns.flatMap (fun l => split_on_char '-' l)
    if 1 < split.length then split ++ [join_with ([' ']) split]
    else split

/-- The `non_lastnames` list built by `generate_name_variations`:
`first_list + suffix_list` with empty entries filtered out. -/
def non_lastnames (p : ParsedName) : List Str :=
  (first_list p ++ p.suffixL).filter (fun t => t ≠ [])

/-- `_update_name_variations_with_product` from `generate_name_variations`:
every pair from the two sets, under both separators, stripped of
separator characters, transliterated and lowercased. -/
def update_with_product (a b : List Str) : List Str :=
  a.flatMap (fun x =>
    b.flatMap (fun y =>
      lastname_non_lastname_separators.map (fun sep =>
        lower_str (unidecode_str (strip_seps (x ++ sep ++ y))))))

/-- `generate_name_variations` from `name.py`, over an already-parsed name
(`p.original` holding the raw input string).  Returns the variation list
together with a flag recording whether the diagnostic
(`LOGGER.warning('Skipping name variations generation - ...')`) was
emitted.  The Python set of variations becomes a deduplicated list. -/
def generate_name_variations (p : ParsedName) : List Str × Bool :=
  if plen p = 1 then ([lower_str (dumps p).1], false)
  else
    let nls := non_lastnames p
    if NAMES_MAX_NUMBER_THRESHOLD < nls.length ∨
        NAMES_MAX_NUMBER_THRESHOLD < p.lastL.length then
      ([p.original], true)
    else
      let nlv := generate_non_lastnames_variations nls
      let lnv := generate_lastnames_variations p.lastL
      ((update_with_product lnv nlv ++ update_with_product nlv lnv).dedup,
       false)

/- ## `generate_es_query` and the bool-clause wrapper -/

/-- Query-tree nodes: the `{match, match_phrase_prefix, bool}` dictionaries
built by `generate_es_query`.  `matchAnd` is a `match` with
`"operator": "AND"`; `matchInitialsAnd` additionally carries
`"analyzer": "names_initials_analyzer"`; `matchPhrasePfx` is a
`match_phrase_prefix` with `"analyzer": "names_analyzer"`; `emptyQ` is the
empty dictionary returned by the wrapper on an empty input. -/
inductive QNode where
  | emptyQ
  | matchAnd (field value : Str)
  | matchInitialsAnd (field value : Str)
  | matchPhrasePfx (field value : Str)
  | boolMust (clauses : List QNode)
  | boolShould (clauses : List QNode)

/-- Python truthiness of a query dictionary: only the empty dictionary is
falsy. -/
def QNode.isEmptyQ : QNode → Bool
  | .emptyQ => true
  | _ => false

/-- `wrap_queries_in_bool_clauses_if_more_than_one` from `query.py` (the
third argument defaults to `False` in the source; all call sites in
`name.py` leave it at that default, passed explicitly here). -/
def wrap_queries_in_bool_clauses_if_more_than_one (queries : List QNode)
    (use_must_clause : Bool)
    (preserve_bool_semantics_if_one_clause : Bool) : QNode :=
  if queries.isEmpty then QNode.emptyQ
  else
    let qs := queries.filter (fun q => !q.isEmptyQ)
    if qs.length = 1 ∧ preserve_bool_semantics_if_one_clause = false then
      qs.headD QNode.emptyQ
    else if use_must_clause then QNode.boolMust qs
    else QNode.boolShould qs

/-- Boundary test of the regex `\.(?=[A-Za-z]|\s|$)` used on given names in
`generate_es_query`: the period splits when followed by a letter, a
whitespace character, or the end of the string. -/
def dot_boundary : Str → Bool
  | [] => true
  | c :: _ => c.isAlpha || is_space_char c

/-- Worker for `split_dots`. -/
def split_dots_aux (acc : Str) : Str → List Str
  | [] => [acc.reverse]
  | c :: rest =>
    if c == '.' && dot_boundary rest then acc.reverse :: split_dots_aux [] rest
    else split_dots_aux (c :: acc) rest

/-- `re.split(r"\.(?=[A-Za-z]|\s|$)", name)` from `generate_es_query`. -/
def split_dots (s : Str) : List Str := split_dots_aux [] s

/-- The per-given-name clause list built inside the loop of
`generate_es_query`: an initials match for single characters or dotted
tokens; otherwise a phrase-prefix and an initials-analyzer match, plus a
`full_name` match on the parsed name string when `maybe_only_last_name`
is set. -/
def name_query (kw : Str) (maybe_only : Bool) (full_name_val : Str)
    (name : Str) : List QNode :=
  if name.length = 1 ∨ name.contains '.' = true then
    [QNode.matchInitialsAnd (kw ++ (".first_name.initials").data) name]
  else
    [QNode.matchPhrasePfx (kw ++ (".first_name").data) name,
     QNode.matchInitialsAnd (kw ++ (".first_name").data) name] ++
      (if maybe_only then
        [QNode.matchAnd (kw ++ (".full_name").data) full_name_val]
      else [])

/-- The given-name sub-tokens queried by `generate_es_query`: each entry of
`first_list` split on embedded periods, flattened, empties dropped. -/
def first_names_for_query (p : ParsedName) : List Str :=
  ((first_list p).map split_dots).flatten.filter (fun s => s ≠ [])

/-- The `nested` query produced by `generate_es_query`: path and the
`bool.must` clause list. -/
structure EsQuery where
  path : Str
  must : List QNode

/-- `ParsedName.generate_es_query` from `name.py`. -/
def generate_es_query (p : ParsedName) (keyword : Str) : EsQuery :=
  if plen p = 1 ∧ (first_str p).contains '.' = false then
    { path := keyword
      must := [QNode.matchAnd (keyword ++ (".last_name").data) (first_str p)] }
  else
    let should_query := (first_names_for_query p).map (fun name =>
      wrap_queries_in_bool_clauses_if_more_than_one
        (name_query keyword p.maybe_only_last_name (str_human_name p) name)
        false false)
    { path := keyword
      must := [QNode.matchAnd (keyword ++ (".last_name").data) (last_str p),
               wrap_queries_in_bool_clauses_if_more_than_one should_query true
                 false] }

/- ## Claims -/

/-- C2: the spec requires the process-wide constants table to be unchanged
by every per-call operation; `ParsedName.__init__` with
`without_titles=True` and no explicit constants argument instead executes
`constants.titles = []` on the shared class-level table, clearing its
titles for the rest of the process.  The third conjunct records that the
call leaves the table unchanged whenever `without_titles` is not set. -/
theorem claim_C2_shared_constants_cleared_by_without_titles :
    (parsed_name_init_constants true none prepare_nameparser_constants).titles
      = [] ∧
    prepare_nameparser_constants.titles ≠ [] ∧
    parsed_name_init_constants false none prepare_nameparser_constants
      = prepare_nameparser_constants := by
  refine ⟨rfl, ?_, rfl⟩
  decide

/-- C7: a parsed name with exactly one effective token containing no period
yields a nested query whose `bool.must` list holds exactly one AND-operator
match on `{prefix}.last_name` with that sole token, and nothing else. -/
theorem claim_C7_bare_single_name_query (p : ParsedName) (kw : Str)
    (h1 : plen p = 1) (h2 : (first_str p).contains '.' = false) :
    generate_es_query p kw =
      { path := kw
        must := [QNode.matchAnd (kw ++ (".last_name").data) (first_str p)] } := by
  rw [generate_es_query, if_pos ⟨h1, h2⟩]

/-- Witness for C7 at the bare single name `Smith` under prefix `authors`. -/
theorem claim_C7_bare_single_name_query_witness :
    plen (parse_name (("Smith").data)) = 1 ∧
    (first_str (parse_name (("Smith").data))).contains '.' = false ∧
    generate_es_query (parse_name (("Smith").data)) (("authors").data) =
      { path := ("authors").data
        must := [QNode.matchAnd (("authors.last_name").data) (("Smith").data)] } :=
  ⟨by decide, by decide,
    (claim_C7_bare_single_name_query (parse_name (("Smith").data))
      (("authors").data) (by decide) (by decide)).trans (by rfl)⟩

/-- Helper shared by the explosion-guard claims: when the parsed name does
not reduce to a single effective token and either token count exceeds the
threshold, `generate_name_variations` returns the raw input alone and
emits the diagnostic. -/
theorem variations_guard (p : ParsedName) (h0 : plen p ≠ 1)
    (h : NAMES_MAX_NUMBER_THRESHOLD < (non_lastnames p).length ∨
      NAMES_MAX_NUMBER_THRESHOLD < p.lastL.length) :
    generate_name_variations p = ([p.original], true) := by
  rw [generate_name_variations, if_neg h0, if_pos h]

/-- C1 counterexample: the trailing-comma input
`Garcia Lopez Hernandez Rodriguez Martinez Gonzalez Perez,` parses with
seven last-name tokens and nothing else, so the parsed name reduces to one
effective token and the single-name branch of `generate_name_variations`
runs before the explosion guard: despite a last-name token count above the
threshold, the result is the lower-cased `dumps()` string — not the raw
input unmodified — and no guard diagnostic is emitted, refuting the
last-name disjunct of the claim as stated. -/
theorem claim_C1_counterexample :
    NAMES_MAX_NUMBER_THRESHOLD <
      (parse_name
        (("Garcia Lopez Hernandez Rodriguez Martinez Gonzalez Perez,").data)).lastL.length ∧
    generate_name_variations
        (parse_name
          (("Garcia Lopez Hernandez Rodriguez Martinez Gonzalez Perez,").data)) =
      ([("garcia lopez hernandez rodriguez martinez gonzalez perez").data],
       false) ∧
    generate_name_variations
        (parse_name
          (("Garcia Lopez Hernandez Rodriguez Martinez Gonzalez Perez,").data)) ≠
      ([(parse_name
          (("Garcia Lopez Hernandez Rodriguez Martinez Gonzalez Perez,").data)).original],
       true) := by
  refine ⟨by decide, by rfl, ?_⟩
  decide

/-- C1 as amended: when the parsed name does not reduce to a single
effective token (`plen p ≠ 1`) and the parsed non-last-name token count or
the last-name token count exceeds the threshold of 5,
`generate_name_variations` performs no expansion: it returns exactly the
one-element list holding the raw input unmodified and emits the
diagnostic.  The single-effective-token case must be excluded because the
code's single-name branch runs first: a trailing-comma all-surname input
with more than five surname tokens takes that branch instead (see the
counterexample above). -/
theorem claim_C1_explosion_guard (p : ParsedName) (h0 : plen p ≠ 1)
    (h : NAMES_MAX_NUMBER_THRESHOLD < (non_lastnames p).length ∨
      NAMES_MAX_NUMBER_THRESHOLD < p.lastL.length) :
    generate_name_variations p = ([p.original], true) :=
  variations_guard p h0 h

/-- Witness for the amended C1 at the spec's example input
`Tseng, Farrukh Azfar Todd Huffman Thilo Pauly` (six given-name tokens). -/
theorem claim_C1_explosion_guard_witness :
    plen (parse_name (("Tseng, Farrukh Azfar Todd Huffman Thilo Pauly").data)) ≠ 1 ∧
    NAMES_MAX_NUMBER_THRESHOLD <
      (non_lastnames
        (parse_name (("Tseng, Farrukh Azfar Todd Huffman Thilo Pauly").data))).length ∧
    generate_name_variations
        (parse_name (("Tseng, Farrukh Azfar Todd Huffman Thilo Pauly").data)) =
      ([("Tseng, Farrukh Azfar Todd Huffman Thilo Pauly").data], true) :=
  ⟨by decide, by decide,
    (claim_C1_explosion_guard
      (parse_name (("Tseng, Farrukh Azfar Todd Huffman Thilo Pauly").data))
      (by decide) (Or.inl (by decide))).trans (by rfl)⟩

/-- C3 counterexample: for the single-token input `Müller` the code returns
`["müller"]` — the token lower-cased but NOT Unicode-folded to ASCII — so
the claimed value `[unidecode(lower(token))] = ["muller"]` differs. -/
theorem claim_C3_counterexample :
    (generate_name_variations (parse_name (("Müller").data))).1
      = [("müller").data] ∧
    (generate_name_variations (parse_name (("Müller").data))).1
      ≠ [unidecode_str (lower_str (("Müller").data))] := by
  refine ⟨by rfl, ?_⟩
  decide

/-- C3 as amended: an input parsing to exactly one effective token yields
the one-element list holding `dumps()` of the parsed name lower-cased, with
no Unicode folding applied and no expansion and no diagnostic. -/
theorem claim_C3_single_name_branch (p : ParsedName) (h : plen p = 1) :
    generate_name_variations p = ([lower_str (dumps p).1], false) := by
  rw [generate_name_variations, if_pos h]

/-- Witness for the amended C3 at the single-token input `Jimmy`. -/
theorem claim_C3_single_name_branch_witness :
    plen (parse_name (("Jimmy").data)) = 1 ∧
    generate_name_variations (parse_name (("Jimmy").data)) =
      ([("jimmy").data], false) :=
  ⟨by decide,
    (claim_C3_single_name_branch (parse_name (("Jimmy").data))
      (by decide)).trans (by rfl)⟩

/-- C4: the variations of `Ellis, John Richard` include the surname alone,
the all-initials forms in both orders, the full form with the comma
separator, and the inverted full form — the drop/initial/full choices
crossed with both orders and separators, case-folded. -/
theorem claim_C4_ellis_variations :
    ("ellis").data ∈
      (generate_name_variations (parse_name (("Ellis, John Richard").data))).1 ∧
    ("ellis j r").data ∈
      (generate_name_variations (parse_name (("Ellis, John Richard").data))).1 ∧
    ("ellis, john richard").data ∈
      (generate_name_variations (parse_name (("Ellis, John Richard").data))).1 ∧
    ("j r ellis").data ∈
      (generate_name_variations (parse_name (("Ellis, John Richard").data))).1 ∧
    ("john richard, ellis").data ∈
      (generate_name_variations (parse_name (("Ellis, John Richard").data))).1 := by
  refine ⟨?_, ?_, ?_, ?_, ?_⟩ <;> decide

/-- A parsed name with one given name and one generational suffix, for
exercising the suffix expansion of `generate_name_variations`. -/
def john_jr_smith : ParsedName :=
  { titleL := [], firstL := [("John").data], middleL := []
    lastL := [("Smith").data], suffixL := [("Jr").data]
    original := ("Smith, John Jr").data, maybe_only_last_name := false }

/-- A parsed name with one given name and five suffix tokens: six
non-last-name tokens in total. -/
def john_many_suffixes : ParsedName :=
  { titleL := [], firstL := [("John").data], middleL := []
    lastL := [("Smith").data]
    suffixL := [("Jr").data, ("Sr").data, ("II").data, ("III").data, ("IV").data]
    original := ("Smith, John Jr Sr II III IV").data
    maybe_only_last_name := false }

/-- C10: suffix tokens are part of the non-last-names of
`generate_name_variations`.  First conjunct: the explosion guard counts
`first_list + suffix_list` (filtered of blanks), so suffixes count toward
the threshold; second: a name with one given name and five suffixes
triggers the guard; remaining conjuncts: a suffix undergoes the same
drop/initial/full three-way expansion as a given name (`jr` kept in full,
reduced to `j`, and dropped). -/
theorem claim_C10_suffixes_expand_and_count (p : ParsedName)
    (h0 : plen p ≠ 1)
    (h : NAMES_MAX_NUMBER_THRESHOLD <
      ((first_list p ++ p.suffixL).filter (fun t => t ≠ [])).length) :
    generate_name_variations p = ([p.original], true) ∧
    generate_name_variations john_many_suffixes =
      ([john_many_suffixes.original], true) ∧
    ("smith john jr").data ∈ (generate_name_variations john_jr_smith).1 ∧
    ("smith john j").data ∈ (generate_name_variations john_jr_smith).1 ∧
    ("smith john").data ∈ (generate_name_variations john_jr_smith).1 ∧
    ("smith jr").data ∈ (generate_name_variations john_jr_smith).1 := by
  refine ⟨variations_guard p h0 (Or.inl h), ?_, ?_, ?_, ?_, ?_⟩
  · exact (variations_guard john_many_suffixes (by decide)
      (Or.inl (by decide))).trans (by rfl)
  all_goals decide

/-- Witness for C10 at the six-non-last-name-token parsed name. -/
theorem claim_C10_suffixes_expand_and_count_witness :
    plen john_many_suffixes ≠ 1 ∧
    NAMES_MAX_NUMBER_THRESHOLD <
      ((first_list john_many_suffixes ++ john_many_suffixes.suffixL).filter
        (fun t => t ≠ [])).length ∧
    generate_name_variations john_many_suffixes =
      ([("Smith, John Jr Sr II III IV").data], true) :=
  ⟨by decide, by decide,
    ((claim_C10_suffixes_expand_and_count john_many_suffixes (by decide)
      (by decide)).1).trans (by rfl)⟩

/-- C9 counterexample: for `Jessica, ` (surname with an empty given-name
part) `dumps` emits the diagnostic but its output is just `Jessica` — the
raw original input string is not used as the first-name segment of the
output (it does not even occur in the output). -/
theorem claim_C9_counterexample :
    first_list (parse_name (("Jessica, ").data)) = [] ∧
    dumps (parse_name (("Jessica, ").data)) = (("Jessica").data, true) ∧
    ¬ (parse_name (("Jessica, ").data)).original
        <:+: (dumps (parse_name (("Jessica, ").data))).1 := by
  refine ⟨by decide, by rfl, ?_⟩
  decide

/-- The suffix as rendered by `dumps`: roman numerals uppercased, anything
else dotted. -/
def dumps_suffix (p : ParsedName) : Str :=
  if is_roman_numeral (suffix_str p) then upper_str (suffix_str p)
  else ensure_dotted_suffixes (suffix_str p)

/-- C9 as amended: when the filtered given-name token list is empty,
`dumps` emits the warning-level diagnostic and composes its output from
the remaining parts only (surname and suffix); the raw original string
appears only in the log message, and the function is total. -/
theorem claim_C9_empty_first_parts (p : ParsedName)
    (h : first_list p = []) :
    dumps p =
      (replace_curly (join_with ([',', ' '])
        (([last_str p, dumps_suffix p]).filter (fun s => s ≠ []))),
       true) := by
  simp only [dumps, dumps_suffix, h, List.map_nil]
  rfl

/-- Witness for the amended C9 at `Jessica, `. -/
theorem claim_C9_empty_first_parts_witness :
    first_list (parse_name (("Jessica, ").data)) = [] ∧
    dumps (parse_name (("Jessica, ").data)) = (("Jessica").data, true) :=
  ⟨by decide,
    (claim_C9_empty_first_parts (parse_name (("Jessica, ").data))
      (by decide)).trans (by rfl)⟩

/-- `List.contains` agrees with membership (strings are char lists with a
lawful `BEq`). -/
theorem contains_iff (t : Str) (c : Char) : t.contains c = true ↔ c ∈ t := by
  simp [List.contains]

/-- Negative form of `contains_iff`. -/
theorem contains_false_iff (t : Str) (c : Char) :
    t.contains c = false ↔ c ∉ t := by
  simp [List.contains]

/-- C5 counterexample: the given-name token `J.P` qualifies as an initial
(it contains a period) yet `dumps` renders it unchanged, without a trailing
period — `normalize_name("Smith, J.P")` ends in `P`, not `.` — refuting
"every such token is rendered with a trailing period". -/
theorem claim_C5_counterexample :
    is_initial_tok (("J.P").data) = true ∧
    ensure_dotted_initials (("J.P").data) = ("J.P").data ∧
    normalize_name (("Smith, J.P").data) = some (("Smith, J.P").data) ∧
    (("Smith, J.P").data).getLast? ≠ some '.' := by
  refine ⟨by decide, by decide, by rfl, by decide⟩

/-- C5 as amended: a given-name token qualifies as an initial exactly when
its length is 1 or it contains a period; every qualifying token is rendered
containing a period, one being appended at the end exactly when the token
has none (so a bare single letter always gains a trailing period, while a
token like `J.P` keeps its embedded period only); adjacent initial tokens
are joined with no separating space, so
`normalize_name("Smith, J. P.") = "Smith, J.P."`. -/
theorem claim_C5_initial_dotting :
    (∀ t : Str, is_initial_tok t = true ↔ (t.length = 1 ∨ '.' ∈ t)) ∧
    (∀ t : Str, is_initial_tok t = true → '.' ∈ ensure_dotted_initials t) ∧
    (∀ t : Str, is_initial_tok t = true → t.contains '.' = false →
      ensure_dotted_initials t = t ++ ['.']) ∧
    normalize_name (("Smith, J. P.").data) = some (("Smith, J.P.").data) := by
  have hiff : ∀ t : Str, is_initial_tok t = true ↔ (t.length = 1 ∨ '.' ∈ t) := by
    intro t
    simp [is_initial_tok]
  have happ : ∀ t : Str, is_initial_tok t = true → t.contains '.' = false →
      ensure_dotted_initials t = t ++ ['.'] := by
    intro t h hc
    have hcond : (is_initial_tok t && !(t.contains '.')) = true := by
      rw [h, hc]
      rfl
    simp only [ensure_dotted_initials, hcond, if_true]
  refine ⟨hiff, ?_, happ, by rfl⟩
  intro t h
  cases hb : t.contains '.' with
  | false =>
    rw [happ t h hb]
    exact List.mem_append_right t (by simp)
  | true =>
    have hsame : ensure_dotted_initials t = t := by
      simp only [ensure_dotted_initials, hb, Bool.not_true, Bool.and_false,
        Bool.false_eq_true, if_false]
    rw [hsame]
    exact (contains_iff t '.').mp hb

/-- Witness for the amended C5: the single-letter token `J` gains a
trailing period. -/
theorem claim_C5_initial_dotting_witness :
    is_initial_tok (("J").data) = true ∧
    '.' ∈ ensure_dotted_initials (("J").data) ∧
    ensure_dotted_initials (("J").data) = ("J").data ++ ['.'] :=
  ⟨by decide,
    claim_C5_initial_dotting.2.1 (("J").data) (by decide),
    claim_C5_initial_dotting.2.2.1 (("J").data) (by decide) (by decide)⟩

/-- C8 counterexample: for the input `john smith` (no comma, so
`maybe_only_last_name` is set) the third OR'd clause matches
`{prefix}.full_name` against the string form of the PARSED name,
`John Smith`, not against the whole original input string `john smith`. -/
theorem claim_C8_counterexample :
    generate_es_query (parse_name (("john smith").data)) (("authors").data) =
      { path := ("authors").data
        must := [QNode.matchAnd (("authors.last_name").data) (("Smith").data),
                 QNode.boolShould
                   [QNode.matchPhrasePfx (("authors.first_name").data)
                      (("John").data),
                    QNode.matchInitialsAnd (("authors.first_name").data)
                      (("John").data),
                    QNode.matchAnd (("authors.full_name").data)
                      (("John Smith").data)]] } ∧
    (parse_name (("john smith").data)).maybe_only_last_name = true ∧
    str_human_name (parse_name (("john smith").data)) = ("John Smith").data ∧
    (parse_name (("john smith").data)).original = ("john smith").data ∧
    ("John Smith").data ≠ (("john smith").data : Str) := by
  refine ⟨by rfl, by rfl, by rfl, by rfl, by decide⟩

/-- C8 as amended: each given-name sub-token (obtained by splitting on
embedded periods) that is a single character or contains a period produces
one initials-analyzer match on `{prefix}.first_name.initials`; each
spelled-out sub-token produces a phrase-prefix match and an
initials-analyzer AND-match on `{prefix}.first_name`, plus — exactly when
`maybe_only_last_name` is set — a third clause matching the string form of
the parsed name (not the raw original input) on `{prefix}.full_name`; the
per-sub-token groups are OR-wrapped, AND-combined together, and joined with
the last-name clause under the nested `bool.must`; `Smith, John K.` yields
the outer AND of the OR-group for `John` and a single initials match for
`K`. -/
theorem claim_C8_given_name_subtoken_clauses :
    (∀ (kw full : Str) (mo : Bool) (name : Str),
      (name.length = 1 ∨ name.contains '.' = true) →
      name_query kw mo full name =
        [QNode.matchInitialsAnd (kw ++ (".first_name.initials").data) name]) ∧
    (∀ (kw full : Str) (mo : Bool) (name : Str),
      name.length ≠ 1 → name.contains '.' = false →
      name_query kw mo full name =
        [QNode.matchPhrasePfx (kw ++ (".first_name").data) name,
         QNode.matchInitialsAnd (kw ++ (".first_name").data) name] ++
          (if mo then [QNode.matchAnd (kw ++ (".full_name").data) full]
           else [])) ∧
    (∀ (p : ParsedName) (kw : Str),
      ¬ (plen p = 1 ∧ (first_str p).contains '.' = false) →
      generate_es_query p kw =
        { path := kw
          must := [QNode.matchAnd (kw ++ (".last_name").data) (last_str p),
                   wrap_queries_in_bool_clauses_if_more_than_one
                     ((first_names_for_query p).map (fun n =>
                       wrap_queries_in_bool_clauses_if_more_than_one
                         (name_query kw p.maybe_only_last_name
                           (str_human_name p) n)
                         false false))
                     true false] }) ∧
    generate_es_query (parse_name (("Smith, John K.").data)) (("authors").data) =
      { path := ("authors").data
        must := [QNode.matchAnd (("authors.last_name").data) (("Smith").data),
                 QNode.boolMust
                   [QNode.boolShould
                     [QNode.matchPhrasePfx (("authors.first_name").data)
                        (("John").data),
                      QNode.matchInitialsAnd (("authors.first_name").data)
                        (("John").data)],
                    QNode.matchInitialsAnd
                      (("authors.first_name.initials").data) (("K").data)]] } := by
  refine ⟨?_, ?_, ?_, by rfl⟩
  · intro kw full mo name h
    rw [name_query, if_pos h]
  · intro kw full mo name h1 h2
    rw [name_query, if_neg ?_]
    rintro (hl | hc)
    · exact h1 hl
    · rw [h2] at hc
      exact Bool.false_ne_true hc
  · intro p kw h
    rw [generate_es_query, if_neg h]

/-- Witness for the amended C8: the initials branch at `K`, the spelled-out
branch at `John`, and the else-branch shape at the parsed `ellis, j`. -/
theorem claim_C8_given_name_subtoken_clauses_witness :
    name_query (("authors").data) false (("Full").data) (("K").data) =
      [QNode.matchInitialsAnd (("authors.first_name.initials").data)
        (("K").data)] ∧
    name_query (("authors").data) false (("Full").data) (("John").data) =
      [QNode.matchPhrasePfx (("authors.first_name").data) (("John").data),
       QNode.matchInitialsAnd (("authors.first_name").data) (("John").data)] ∧
    generate_es_query (parse_name (("ellis, j").data)) (("authors").data) =
      { path := ("authors").data
        must := [QNode.matchAnd (("authors.last_name").data) (("Ellis").data),
                 QNode.matchInitialsAnd
                   (("authors.first_name.initials").data) (("J").data)] } :=
  ⟨(claim_C8_given_name_subtoken_clauses.1 (("authors").data) (("Full").data)
      false (("K").data) (Or.inl (by decide))).trans (by rfl),
   (claim_C8_given_name_subtoken_clauses.2.1 (("authors").data) (("Full").data)
      false (("John").data) (by decide) (by decide)).trans (by rfl),
   (claim_C8_given_name_subtoken_clauses.2.2.1
      (parse_name (("ellis, j").data)) (("authors").data)
      (by decide)).trans (by rfl)⟩

/- ## Well-formed `Last, First Middle` inputs (for the idempotence claim) -/

/-- The ASCII uppercase letters. -/
def upper_chars : List Char := ("ABCDEFGHIJKLMNOPQRSTUVWXYZ").data

/-- The ASCII lowercase letters. -/
def lower_chars : List Char := ("abcdefghijklmnopqrstuvwxyz").data

/-- A plainly-capitalized alphabetic word: one uppercase letter followed by
lowercase letters. -/
def plain_word : Str → Bool
  | [] => false
  | c :: rest => upper_chars.contains c && rest.all (fun d => lower_chars.contains d)

/-- A `Last, First Middle` input string assembled from a surname and
given-name tokens. -/
def render_last_first (last : Str) (firsts : List Str) : Str :=
  last ++ [','] ++ [' '] ++ join_with ([' ']) firsts

/-- Well-formedness of a `Last, First Middle` input: the surname and every
given name is a plainly-capitalized alphabetic word, there is at least one
given name, every given name is spelled out (length at least 2), and no
token collides with the configured suffix or title lists. -/
def well_formed_last_first (last : Str) (firsts : List Str) : Bool :=
  plain_word last && !(is_suffix_tok last) &&
    !(inspire_titles.contains (lower_str last)) &&
    !firsts.isEmpty &&
    firsts.all (fun t => plain_word t && t.length != 1 && !(is_suffix_tok t) &&
      !(inspire_titles.contains (lower_str t)))

/-- Character-level facts about uppercase letters, checked by evaluation. -/
theorem upper_char_facts : ∀ c ∈ upper_chars,
    is_space_char c = false ∧ (c == ',') = false ∧ (c == '.') = false ∧
    (c == '’') = false ∧ c.isUpper = true ∧ (c != ',') = true := by
  decide

/-- Character-level facts about lowercase letters, checked by evaluation. -/
theorem lower_char_facts : ∀ c ∈ lower_chars,
    is_space_char c = false ∧ (c == ',') = false ∧ (c == '.') = false ∧
    (c == '’') = false ∧ (c != ',') = true := by
  decide

/-- A plain word is non-empty. -/
theorem plain_word_ne_nil (t : Str) (h : plain_word t = true) : t ≠ [] := by
  cases t with
  | nil => exact absurd h (by decide)
  | cons a rest => exact List.cons_ne_nil a rest

/-- Every character of a plain word is a letter: not a space, comma, period
or curly apostrophe. -/
theorem plain_word_chars (t : Str) (h : plain_word t = true) :
    ∀ c ∈ t, is_space_char c = false ∧ (c == ',') = false ∧
      (c == '.') = false ∧ (c == '’') = false := by
  cases t with
  | nil => intro c hc; cases hc
  | cons a rest =>
    simp only [plain_word, Bool.and_eq_true, List.all_eq_true] at h
    intro c hc
    rcases List.mem_cons.mp hc with rfl | hmem
    · have hf := upper_char_facts c ((contains_iff upper_chars c).mp h.1)
      exact ⟨hf.1, hf.2.1, hf.2.2.1, hf.2.2.2.1⟩
    · have hl := h.2 c hmem
      have hf := lower_char_facts c ((contains_iff lower_chars c).mp hl)
      exact ⟨hf.1, hf.2.1, hf.2.2.1, hf.2.2.2.1⟩

/-- The head of a plain word is an uppercase letter. -/
theorem plain_word_head_upper (a : Char) (rest : Str)
    (h : plain_word (a :: rest) = true) : a.isUpper = true := by
  simp only [plain_word, Bool.and_eq_true] at h
  exact (upper_char_facts a ((contains_iff upper_chars a).mp h.1)).2.2.2.2.1

/-- Capitalization normalization leaves a plain word unchanged. -/
theorem cap_token_plain (t : Str) (h : plain_word t = true) :
    cap_token t = t := by
  cases t with
  | nil => rfl
  | cons a rest =>
    have ha := plain_word_head_upper a rest h
    simp [cap_token, ha]

/-- `takeWhile` passes over a block whose characters all satisfy the
predicate. -/
theorem takeWhile_append_all (p : Char → Bool) (a b : Str)
    (h : ∀ c ∈ a, p c = true) :
    (a ++ b).takeWhile p = a ++ b.takeWhile p := by
  induction a with
  | nil => simp
  | cons c cs ih =>
    have hc := h c (by simp)
    simp only [List.cons_append, List.takeWhile_cons, hc, if_true]
    rw [ih (fun d hd => h d (by simp [hd]))]

/-- `dropWhile` consumes a block whose characters all satisfy the
predicate. -/
theorem dropWhile_append_all (p : Char → Bool) (a b : Str)
    (h : ∀ c ∈ a, p c = true) :
    (a ++ b).dropWhile p = b.dropWhile p := by
  induction a with
  | nil => simp
  | cons c cs ih =>
    have hc := h c (by simp)
    simp only [List.cons_append, List.dropWhile_cons, hc, if_true]
    exact ih (fun d hd => h d (by simp [hd]))

/-- The text before the first comma of `last ++ "," ++ r` is `last` when
`last` is comma-free. -/
theorem before_comma_append (last r : Str)
    (h : ∀ c ∈ last, (c != ',') = true) :
    before_comma (last ++ ',' :: r) = last := by
  unfold before_comma
  rw [takeWhile_append_all _ last (',' :: r) h]
  simp [List.takeWhile_cons]

/-- The text after the first comma of `last ++ "," ++ r` is `r` when `last`
is comma-free. -/
theorem after_comma_append (last r : Str)
    (h : ∀ c ∈ last, (c != ',') = true) :
    after_comma (last ++ ',' :: r) = r := by
  unfold after_comma
  rw [dropWhile_append_all _ last (',' :: r) h]
  simp [List.dropWhile_cons]

/-- The tokenizer accumulates a separator-free block unchanged. -/
theorem split_toks_aux_no_sep (sep : Char → Bool) (t : Str)
    (h : ∀ c ∈ t, sep c = false) (acc rest : Str) :
    split_toks_aux sep acc (t ++ rest) =
      split_toks_aux sep (t.reverse ++ acc) rest := by
  induction t generalizing acc with
  | nil => simp
  | cons c cs ih =>
    have hc := h c (by simp)
    simp only [List.cons_append, split_toks_aux, hc, Bool.false_eq_true,
      if_false, List.append_eq]
    rw [ih (fun d hd => h d (by simp [hd])) (c :: acc)]
    congr 1
    simp

/-- The tokenizer inverts `join_with " "` on non-empty separator-free
tokens. -/
theorem split_toks_aux_join (sep : Char → Bool) (hsp : sep ' ' = true)
    (ts : List Str) (hne : ∀ t ∈ ts, t ≠ [])
    (hch : ∀ t ∈ ts, ∀ c ∈ t, sep c = false) :
    split_toks_aux sep [] (join_with ([' ']) ts) = ts := by
  induction ts with
  | nil => rfl
  | cons t ts ih =>
    cases ts with
    | nil =>
      have hne' : t ≠ [] := hne t (by simp)
      have h1 := split_toks_aux_no_sep sep t (hch t (by simp)) [] []
      have h2 : t ++ ([] : Str) = t := List.append_nil t
      rw [h2] at h1
      show split_toks_aux sep [] t = [t]
      rw [h1]
      simp [split_toks_aux, List.reverse_eq_nil_iff, hne']
    | cons u ts' =>
      have hne' : t ≠ [] := hne t (by simp)
      have hshape : join_with ([' ']) (t :: u :: ts') =
          t ++ (' ' :: join_with ([' ']) (u :: ts')) := by
        show t ++ [' '] ++ join_with ([' ']) (u :: ts') =
          t ++ (' ' :: join_with ([' ']) (u :: ts'))
        simp
      rw [hshape,
        split_toks_aux_no_sep sep t (hch t (by simp)) []
          (' ' :: join_with ([' ']) (u :: ts'))]
      simp only [split_toks_aux, hsp, if_true, List.append_nil,
        List.reverse_eq_nil_iff, List.reverse_reverse, hne', if_false]
      rw [ih (fun v hv => hne v (by simp [hv]))
        (fun v hv => hch v (by simp [hv]))]
      simp [hne']

/-- Whitespace tokenization of a single space-free non-empty token. -/
theorem split_ws_single (t : Str) (hne : t ≠ [])
    (h : ∀ c ∈ t, is_space_char c = false) : split_ws t = [t] := by
  have := split_toks_aux_join is_space_char (by decide) [t]
    (by simpa using hne) (by simpa using h)
  simpa [join_with, split_ws] using this

/-- Tokenizing `" " ++ join` recovers the tokens. -/
theorem split_ws_comma_space_join (ts : List Str)
    (hne : ∀ t ∈ ts, t ≠ [])
    (hch : ∀ t ∈ ts, ∀ c ∈ t, (is_space_char c || (c == ',')) = false) :
    split_ws_comma (' ' :: join_with ([' ']) ts) = ts := by
  unfold split_ws_comma
  have hsp : (is_space_char ' ' || (' ' == ',')) = true := by decide
  simp only [split_toks_aux, hsp, if_true]
  simpa using split_toks_aux_join _ (by decide) ts hne hch

/-- When no token is a recognized suffix, suffix stripping is the
identity. -/
theorem strip_trailing_no_suffixes (toks : List Str)
    (h : ∀ t ∈ toks, is_suffix_tok t = false) :
    strip_trailing_suffixes toks = (toks, []) := by
  unfold strip_trailing_suffixes
  cases hrev : toks.reverse with
  | nil =>
    have : toks = [] := List.reverse_eq_nil_iff.mp hrev
    subst this
    rfl
  | cons r rs =>
    have hr : r ∈ toks := by
      rw [← List.mem_reverse, hrev]
      simp
    have hnr := h r hr
    show ((List.dropWhile is_suffix_tok (r :: rs)).reverse,
      (List.takeWhile is_suffix_tok (r :: rs)).reverse) = (toks, [])
    rw [List.dropWhile_cons_of_neg (by simp [hnr]),
      List.takeWhile_cons_of_neg (by simp [hnr])]
    rw [← hrev, List.reverse_reverse]
    rfl

/-- Capitalization normalization over a list of plain words. -/
theorem map_cap_token_plain (ts : List Str)
    (h : ∀ t ∈ ts, plain_word t = true) : ts.map cap_token = ts := by
  induction ts with
  | nil => rfl
  | cons t ts ih =>
    rw [List.map_cons, cap_token_plain t (h t (by simp)),
      ih (fun u hu => h u (by simp [hu]))]

/-- Parsing a well-shaped `Last, First Middle` string recovers the expected
structured name: surname before the comma, given names after it, no
suffix, flag off. -/
theorem parse_render_last_first (last : Str) (firsts : List Str)
    (hl : plain_word last = true)
    (hf : ∀ t ∈ firsts, plain_word t = true)
    (hs : ∀ t ∈ firsts, is_suffix_tok t = false) :
    parse_name (render_last_first last firsts) =
      { titleL := [], firstL := firsts.take 1, middleL := firsts.drop 1,
        lastL := [last], suffixL := [],
        original := render_last_first last firsts,
        maybe_only_last_name := false } := by
  have hlastch := plain_word_chars last hl
  have hnc : ∀ c ∈ last, (c != ',') = true := by
    intro c hc
    have := (hlastch c hc).2.1
    simp [bne, this]
  have hshape : render_last_first last firsts =
      last ++ ',' :: (' ' :: join_with ([' ']) firsts) := by
    simp [render_last_first]
  have hbefore : before_comma (render_last_first last firsts) = last := by
    rw [hshape]
    exact before_comma_append last _ hnc
  have hafter : after_comma (render_last_first last firsts) =
      ' ' :: join_with ([' ']) firsts := by
    rw [hshape]
    exact after_comma_append last _ hnc
  have hcomma : (render_last_first last firsts).contains ',' = true := by
    rw [contains_iff, hshape]
    simp
  have hlasttoks : (split_ws (before_comma (render_last_first last firsts))).map
      cap_token = [last] := by
    rw [hbefore, split_ws_single last (plain_word_ne_nil last hl)
      (fun c hc => (hlastch c hc).1)]
    simp [cap_token_plain last hl]
  have hgiven : (split_ws_comma (after_comma (render_last_first last firsts))).map
      cap_token = firsts := by
    rw [hafter, split_ws_comma_space_join firsts
      (fun t ht => plain_word_ne_nil t (hf t ht))
      (fun t ht c hc => by
        have hch := plain_word_chars t (hf t ht) c hc
        simp [hch.1, hch.2.1])]
    exact map_cap_token_plain firsts hf
  have hstrip : strip_trailing_suffixes firsts = (firsts, []) :=
    strip_trailing_no_suffixes firsts hs
  rw [parse_name, if_pos hcomma]
  simp only [parse_comma_form, hgiven, hstrip, hlasttoks]

/-- A spelled-out plain word is not an initial. -/
theorem is_initial_plain_false (t : Str) (h : plain_word t = true)
    (hlen : (t.length != 1) = true) : is_initial_tok t = false := by
  have h2 : t.contains '.' = false := by
    rw [contains_false_iff]
    intro hmem
    have := (plain_word_chars t h '.' hmem).2.2.1
    simp at this
  have h1 : (t.length == 1) = false := by simpa using hlen
  simp only [is_initial_tok, h1, Bool.false_or, h2]

/-- Dotting leaves a non-initial token unchanged. -/
theorem ensure_dotted_not_initial (t : Str) (h : is_initial_tok t = false) :
    ensure_dotted_initials t = t := by
  simp [ensure_dotted_initials, h]

/-- Dotting a list of non-initial tokens. -/
theorem map_ensure_dotted_not_initial (ts : List Str)
    (h : ∀ t ∈ ts, is_initial_tok t = false) :
    ts.map ensure_dotted_initials = ts := by
  induction ts with
  | nil => rfl
  | cons t ts ih =>
    rw [List.map_cons, ensure_dotted_not_initial t (h t (by simp)),
      ih (fun u hu => h u (by simp [hu]))]

/-- With no initials in sight, the `dumps` joining loop inserts a space
before every token. -/
theorem dumps_join_no_initials (ts : List Str) (prev : Str)
    (h : ∀ t ∈ ts, is_initial_tok t = false) :
    dumps_join prev ts = ts.flatMap (fun t => ' ' :: t) := by
  induction ts generalizing prev with
  | nil => rfl
  | cons t ts ih =>
    have ht := h t (by simp)
    simp only [dumps_join, ht, Bool.false_and, Bool.false_eq_true, if_false,
      List.flatMap_cons]
    rw [ih t (fun u hu => h u (by simp [hu]))]
    simp

/-- The space-join of a token list, head-first form. -/
theorem join_flatMap (t : Str) (ts : List Str) :
    join_with ([' ']) (t :: ts) = t ++ ts.flatMap (fun u => ' ' :: u) := by
  induction ts generalizing t with
  | nil => simp [join_with]
  | cons u ts ih =>
    rw [show join_with ([' ']) (t :: u :: ts) =
      t ++ [' '] ++ join_with ([' ']) (u :: ts) from rfl]
    rw [ih u]
    simp

/-- The head of the space-join of plain words is not whitespace. -/
theorem join_plain_head (t : Str) (ts : List Str) (h : plain_word t = true) :
    ∀ c, (join_with ([' ']) (t :: ts)).head? = some c →
      is_space_char c = false := by
  rw [join_flatMap]
  cases t with
  | nil => exact absurd h (by simp [plain_word])
  | cons a rest =>
    intro c hc
    simp only [List.cons_append, List.head?_cons, Option.some.injEq] at hc
    rw [← hc]
    exact (plain_word_chars (a :: rest) h a (by simp)).1

/-- The space-join of a non-empty plain word with anything is non-empty. -/
theorem join_plain_ne_nil (t : Str) (ts : List Str)
    (h : plain_word t = true) : join_with ([' ']) (t :: ts) ≠ [] := by
  rw [join_flatMap]
  cases t with
  | nil => exact absurd h (by simp [plain_word])
  | cons a rest => simp

/-- The last character of the space-join of plain words is not
whitespace. -/
theorem join_plain_last (ts : List Str)
    (h : ∀ t ∈ ts, plain_word t = true) (hne : ts ≠ []) :
    ∀ c, (join_with ([' ']) ts).getLast? = some c →
      is_space_char c = false := by
  induction ts with
  | nil => cases hne rfl
  | cons t ts ih =>
    cases ts with
    | nil =>
      intro c hc
      have hc' : c ∈ (t : Str).getLast? := hc.symm ▸ rfl
      rcases List.mem_getLast?_eq_getLast hc' with ⟨hne', heq⟩
      have hmem : c ∈ t := heq ▸ List.getLast_mem hne'
      exact (plain_word_chars t (h t (by simp)) c hmem).1
    | cons u ts' =>
      intro c hc
      have hshape : join_with ([' ']) (t :: u :: ts') =
          (t ++ [' ']) ++ join_with ([' ']) (u :: ts') := by
        show t ++ [' '] ++ join_with ([' ']) (u :: ts') =
          (t ++ [' ']) ++ join_with ([' ']) (u :: ts')
        simp
      rw [hshape, List.getLast?_append_of_ne_nil _
        (join_plain_ne_nil u ts' (h u (by simp)))] at hc
      exact ih (fun v hv => h v (by simp [hv])) (List.cons_ne_nil u ts') c hc

/-- `dropWhile` is the identity when the head fails the predicate. -/
theorem dropWhile_head_false (p : Char → Bool) (s : Str)
    (h : ∀ c, s.head? = some c → p c = false) : s.dropWhile p = s := by
  cases s with
  | nil => rfl
  | cons a l => exact List.dropWhile_cons_of_neg (by simp [h a rfl])

/-- Stripping is the identity when neither end satisfies the predicate. -/
theorem strip_while_eq_self (p : Char → Bool) (s : Str)
    (h1 : ∀ c, s.head? = some c → p c = false)
    (h2 : ∀ c, s.getLast? = some c → p c = false) :
    strip_while p s = s := by
  unfold strip_while
  rw [dropWhile_head_false p s h1]
  rw [dropWhile_head_false p s.reverse
    (fun c hc => h2 c (by rw [← List.head?_reverse]; exact hc))]
  exact List.reverse_reverse s

/-- Curly-apostrophe replacement is the identity on curly-free strings. -/
theorem replace_curly_eq_self (s : Str) (h : ∀ c ∈ s, (c == '’') = false) :
    replace_curly s = s := by
  unfold replace_curly
  have hcong : ∀ c ∈ s, (if c == '’' then apos else c) = id c := by
    intro c hc
    simp [h c hc]
  rw [List.map_congr_left hcong, List.map_id]

/-- No character of the space-join of plain words is a curly apostrophe. -/
theorem join_plain_no_curly (ts : List Str)
    (h : ∀ t ∈ ts, plain_word t = true) :
    ∀ c ∈ join_with ([' ']) ts, (c == '’') = false := by
  cases ts with
  | nil => simp [join_with]
  | cons t ts' =>
    rw [join_flatMap]
    intro c hc
    rcases List.mem_append.mp hc with h1 | h2
    · exact (plain_word_chars t (h t (by simp)) c h1).2.2.2
    · rcases List.mem_flatMap.mp h2 with ⟨u, hu, hcu⟩
      rcases List.mem_cons.mp hcu with rfl | hcu'
      · decide
      · exact (plain_word_chars u (h u (by simp [hu])) c hcu').2.2.2

/-- `dumps` restores a well-shaped `Last, First Middle` input exactly:
normalizing it is the identity (and no diagnostic fires). -/
theorem dumps_render (last : Str) (firsts : List Str)
    (hl : plain_word last = true)
    (hf : ∀ t ∈ firsts, plain_word t = true)
    (hflen : ∀ t ∈ firsts, (t.length != 1) = true)
    (hs : ∀ t ∈ firsts, is_suffix_tok t = false)
    (hne : firsts ≠ []) :
    dumps (parse_name (render_last_first last firsts)) =
      (render_last_first last firsts, false) := by
  rw [parse_render_last_first last firsts hl hf hs]
  obtain ⟨f, fs, rfl⟩ := List.exists_cons_of_ne_nil hne
  have hinit : ∀ t ∈ f :: fs, is_initial_tok t = false :=
    fun t ht => is_initial_plain_false t (hf t ht) (hflen t ht)
  have hfl : first_list
      { titleL := [], firstL := (f :: fs).take 1, middleL := (f :: fs).drop 1,
        lastL := [last], suffixL := [],
        original := render_last_first last (f :: fs),
        maybe_only_last_name := false } = f :: fs := by
    unfold first_list
    show ((f :: fs).take 1 ++ (f :: fs).drop 1).filter (fun t => t ≠ []) =
      f :: fs
    rw [List.take_append_drop]
    refine List.filter_eq_self.mpr ?_
    intro a ha
    simpa using plain_word_ne_nil a (hf a ha)
  have hjoin_ne : join_with ([' ']) (f :: fs) ≠ [] :=
    join_plain_ne_nil f fs (hf f (by simp))
  have hstripws : strip_ws (join_with ([' ']) (f :: fs)) =
      join_with ([' ']) (f :: fs) := by
    unfold strip_ws
    exact strip_while_eq_self is_space_char _
      (join_plain_head f fs (hf f (by simp)))
      (join_plain_last (f :: fs) hf (List.cons_ne_nil f fs))
  simp only [dumps]
  rw [hfl, map_ensure_dotted_not_initial (f :: fs) hinit]
  simp only [dumps_names]
  rw [dumps_join_no_initials fs f (fun t ht => hinit t (by simp [ht]))]
  rw [← join_flatMap f fs]
  simp only [last_str, suffix_str, join_with]
  rw [hstripws]
  have hfilter :
      ([last, join_with ([' ']) (f :: fs), if is_roman_numeral [] then
        upper_str [] else ensure_dotted_suffixes []] : List Str).filter
        (fun s => s ≠ []) = [last, join_with ([' ']) (f :: fs)] := by
    have : (if is_roman_numeral [] then upper_str []
        else ensure_dotted_suffixes []) = ([] : Str) := by decide
    rw [this]
    simp [plain_word_ne_nil last hl, hjoin_ne]
  rw [hfilter]
  have hjoin2 : join_with ([',', ' ']) [last, join_with ([' ']) (f :: fs)] =
      render_last_first last (f :: fs) := by
    show last ++ [',', ' '] ++ join_with ([' ']) (f :: fs) =
      render_last_first last (f :: fs)
    unfold render_last_first
    simp
  rw [hjoin2]
  have hnocurly : ∀ c ∈ render_last_first last (f :: fs),
      (c == '’') = false := by
    intro c hc
    unfold render_last_first at hc
    simp only [List.append_assoc, List.mem_append, List.mem_cons,
      List.not_mem_nil, or_false, false_or] at hc
    rcases hc with hc | hc | hc | hc
    · exact (plain_word_chars last hl c hc).2.2.2
    · subst hc
      decide
    · subst hc
      decide
    · exact join_plain_no_curly (f :: fs) hf c hc
  rw [replace_curly_eq_self _ hnocurly]

/-- C6: `normalize_name` is idempotent on well-formed `Last, First Middle`
inputs.  On such inputs it is in fact the identity (first conjunct), from
which idempotence (second conjunct) follows; the concrete instance
`normalize_name("Smith, John Peter") = "Smith, John Peter"` is the
witness. -/
theorem claim_C6_normalize_idempotent (last : Str) (firsts : List Str)
    (h : well_formed_last_first last firsts = true) :
    normalize_name (render_last_first last firsts) =
      some (render_last_first last firsts) ∧
    (normalize_name (render_last_first last firsts)).bind normalize_name =
      normalize_name (render_last_first last firsts) := by
  simp only [well_formed_last_first, Bool.and_eq_true, List.all_eq_true] at h
  obtain ⟨⟨⟨⟨hl, hsl⟩, htl⟩, hfe⟩, hall⟩ := h
  have hne : firsts ≠ [] := by simpa using hfe
  have hf : ∀ t ∈ firsts, plain_word t = true := by
    intro t ht
    have := hall t ht
    simp only [Bool.and_eq_true] at this
    exact this.1.1.1
  have hflen : ∀ t ∈ firsts, (t.length != 1) = true := by
    intro t ht
    have := hall t ht
    simp only [Bool.and_eq_true] at this
    exact this.1.1.2
  have hsuf : ∀ t ∈ firsts, is_suffix_tok t = false := by
    intro t ht
    have := hall t ht
    simp only [Bool.and_eq_true] at this
    simpa using this.1.2
  have hdumps := dumps_render last firsts hl hf hflen hsuf hne
  have hall_space :
      (render_last_first last firsts).all is_space_char = false := by
    cases hlast : last with
    | nil =>
      rw [hlast] at hl
      exact absurd hl (by simp [plain_word])
    | cons a rest =>
      rw [hlast] at hl
      have hsp := (plain_word_chars (a :: rest) hl a (by simp)).1
      show ((a :: rest) ++ [','] ++ [' '] ++ join_with ([' ']) firsts).all
        is_space_char = false
      simp [hsp]
  have hmain : normalize_name (render_last_first last firsts) =
      some (render_last_first last firsts) := by
    rw [normalize_name, if_neg (by simp [hall_space])]
    rw [hdumps]
  refine ⟨hmain, ?_⟩
  rw [hmain]
  exact hmain

/-- Witness for C6 at `Smith, John Peter`. -/
theorem claim_C6_normalize_idempotent_witness :
    well_formed_last_first (("Smith").data) [("John").data, ("Peter").data]
      = true ∧
    normalize_name (("Smith, John Peter").data) =
      some (("Smith, John Peter").data) ∧
    (normalize_name (("Smith, John Peter").data)).bind normalize_name =
      normalize_name (("Smith, John Peter").data) := by
  refine ⟨by decide, ?_, ?_⟩
  · exact (claim_C6_normalize_idempotent (("Smith").data)
      [("John").data, ("Peter").data] (by decide)).1
  · exact (claim_C6_normalize_idempotent (("Smith").data)
      [("John").data, ("Peter").data] (by decide)).2
